import Mathlib

/-!
# Verification of the maze pursuit-game engine

A shallow embedding of the core simulation engine of the maze repository
(file maze.py): the Move / Position / Obstruction / Maze data model and the
Game round-resolution state machine, together with theorems settling the
frozen claims about the natural-language specification.

Modelling conventions:
* Python ints are modelled by Int (positions) and Nat (dimensions, counters,
  cell values).
* Fallible operations (constructors that raise, KeyError from a STEP lookup
  on an illegal agent return value) are modelled with Except String.
* Agents are modelled as functions from the observations the engine passes
  them (an Obstruction snapshot and an optional ping response) to a TurnAction;
  a TurnAction is either one of the six Move singletons or an `invalid` token
  standing for any other Python value an agent might return (equality with
  the Move singletons is identity in the source, so every such value falls
  through the comparisons and hits the STEP dict lookup, raising KeyError).
* The random source of player placement (random.randint pairs) is modelled
  as an explicit stream of draws, one Position per attempt.
-/

/-- The six move singletons of maze.py (STAY, UP, LEFT, DOWN, RIGHT, PING). -/
inductive Move where
  | stay
  | up
  | left
  | down
  | right
  | ping
deriving DecidableEq, BEq, Repr

/-- A 2-dimensional integer position, as the Position class of maze.py. -/
structure Position where
  x : Int
  y : Int
deriving DecidableEq, Repr

instance : Add Position := ⟨fun a b => ⟨a.x + b.x, a.y + b.y⟩⟩

instance : Sub Position := ⟨fun a b => ⟨a.x - b.x, a.y - b.y⟩⟩

instance : Neg Position := ⟨fun a => ⟨-a.x, -a.y⟩⟩

/-- The STEP table of maze.py: unit displacement of each move.
The Python dict has no entry for PING (looking PING up raises KeyError),
but the engine never looks PING up in STEP: the PING case is dispatched
before the lookup, as is every illegal value (modelled by TurnAction.invalid).
The value given here for ping is therefore never consulted. -/
def step : Move → Position
  | .up => ⟨0, 1⟩
  | .left => ⟨-1, 0⟩
  | .down => ⟨0, -1⟩
  | .right => ⟨1, 0⟩
  | .stay => ⟨0, 0⟩
  | .ping => ⟨0, 0⟩

/-- Whether a move is one of the four directions (UP, DOWN, LEFT, RIGHT). -/
def Move.isDir : Move → Bool
  | .up | .down | .left | .right => true
  | _ => false

/-- The Obstruction snapshot of maze.py: one Bool per direction. -/
structure Obstruction where
  up : Bool
  left : Bool
  down : Bool
  right : Bool
deriving DecidableEq, Repr

/-- Subscripting an Obstruction by a direction (its Python getter).
Only ever consulted at the four directions; the stay and ping entries are
unreachable in the engine (guarded by Move.isDir). -/
def Obstruction.look : Obstruction → Move → Bool
  | o, .up => o.up
  | o, .left => o.left
  | o, .down => o.down
  | o, .right => o.right
  | _, .stay => false
  | _, .ping => false

/-- The Maze of maze.py: a width, a height, and the internal row list
self._cells, subscripted cells[y][x] (the row list is stored already
reversed relative to the layout string, exactly as in the source). -/
structure Maze where
  width : Nat
  height : Nat
  cells : List (List Nat)
deriving DecidableEq, Repr

/-- Maze.space (cell value 0). -/
def Maze.space : Nat := 0

/-- Maze.wall (cell value 1). -/
def Maze.wall : Nat := 1

/-- Maze.__getitem__ for a Position index: out-of-bounds reads report wall,
in-bounds reads return the stored cell. (The getD defaults model the list
indexing; they are never hit for a well-formed maze, whose rows have the
advertised dimensions.) -/
def Maze.getItem (m : Maze) (p : Position) : Nat :=
  if 0 ≤ p.x ∧ p.x < (m.width : Int) ∧ 0 ≤ p.y ∧ p.y < (m.height : Int) then
    (m.cells.getD p.y.toNat []).getD p.x.toNat Maze.wall
  else
    Maze.wall

/-- In-bounds predicate for a position, [0,W) x [0,H). -/
def Maze.inBounds (m : Maze) (p : Position) : Prop :=
  0 ≤ p.x ∧ p.x < (m.width : Int) ∧ 0 ≤ p.y ∧ p.y < (m.height : Int)

instance (m : Maze) (p : Position) : Decidable (m.inBounds p) := by
  unfold Maze.inBounds
  infer_instance

/-- Maze.obstruction: the four booleans, each the truthiness (bool(...),
i.e. nonzero) of the cell one step in that direction. -/
def Maze.obstruction (m : Maze) (p : Position) : Obstruction :=
  ⟨m.getItem (p + step .up) != 0,
   m.getItem (p + step .left) != 0,
   m.getItem (p + step .down) != 0,
   m.getItem (p + step .right) != 0⟩

/-- Maze.empty_cells: the number of cells of the stored rows that are falsy
(equal to 0). -/
def Maze.empty_cells (m : Maze) : Nat :=
  (m.cells.map (fun row => row.countP (fun c => c == 0))).sum

/-- Python int() applied to one character of a layout string: a decimal
digit maps to its value, anything else raises ValueError. -/
def charToInt (c : Char) : Except String Nat :=
  if c.isDigit then .ok (c.toNat - 48) else .error "invalid literal"

/-- map(int, chars), left to right, surfacing the first failure. -/
def mapInts : List Char → Except String (List Nat)
  | [] => .ok []
  | c :: cs =>
    match charToInt c with
    | .error e => .error e
    | .ok v =>
      match mapInts cs with
      | .error e => .error e
      | .ok vs => .ok (v :: vs)

/-- The row-building loop of Maze.__init__ over a layout: row y is
map(int, data[y*width:(y+1)*width]). -/
def buildRows (d : List Char) (width : Nat) : List Nat → Except String (List (List Nat))
  | [] => .ok []
  | y :: ys =>
    match mapInts ((d.drop (y * width)).take width) with
    | .error e => .error e
    | .ok row =>
      match buildRows d width ys with
      | .error e => .error e
      | .ok rows => .ok (row :: rows)

/-- Maze.__init__: either a blank maze of spaces, or rows decoded from a
layout string whose length must be width*height; the row list is reversed
at the end, as in the source. Failures (wrong length, a character int()
rejects) are the ValueErrors the constructor raises. -/
def Maze.init (width height : Nat) (data : Option (List Char)) : Except String Maze :=
  match data with
  | none =>
    .ok ⟨width, height, (List.replicate height (List.replicate width Maze.space)).reverse⟩
  | some d =>
    if d.length ≠ width * height then
      .error "wrong data length"
    else
      match buildRows d width (List.range height) with
      | .error e => .error e
      | .ok rows => .ok ⟨width, height, rows.reverse⟩

/-- Maze.__mul__ with an (a, b) pair of repeat counts: the new maze has
width*a columns and height*b rows, and its row list is the source's row
list (each row repeated a times end to end) repeated b times. -/
def Maze.tile (m : Maze) (a b : Nat) : Maze :=
  ⟨m.width * a, m.height * b,
   (List.replicate b ((List.range m.height).map
      (fun y => (List.replicate a (m.cells.getD y [])).flatten))).flatten⟩

/-- A maze whose stored rows match its advertised dimensions. Every maze
the constructors of the source produce is well formed. -/
def Maze.wellFormed (m : Maze) : Prop :=
  m.cells.length = m.height ∧ ∀ row ∈ m.cells, row.length = m.width

instance (m : Maze) : Decidable m.wellFormed := by
  unfold Maze.wellFormed
  infer_instance

/-- The three player slots of a Game, in processing order. -/
inductive Role where
  | g0
  | g1
  | bd
deriving DecidableEq, BEq, Repr

/-- self.players: the tuple (goody0, goody1, baddy). -/
def players : List Role := [.g0, .g1, .bd]

/-- The game status strings of maze.py. -/
inductive Status where
  | notStarted
  | inPlay
  | goodiesWin
  | baddyWins
  | draw
deriving DecidableEq, BEq, Repr

/-- A ping response for one player: the other players paired with their
positions relative to that player. -/
abbrev PingResp := List (Role × Position)

/-- What an agent's take_turn returns: one of the six Move singletons, or
(`invalid n`) any other Python value. Comparison with the singletons is
identity in the source, so an invalid value falls through every comparison
and reaches the STEP dict lookup, which raises KeyError. -/
inductive TurnAction where
  | move : Move → TurnAction
  | invalid : Nat → TurnAction
deriving DecidableEq, Repr

/-- An agent, as the engine sees it for one call: a function from the
observations passed to take_turn (obstruction snapshot, optional ping
response) to the returned TurnAction. -/
abbrev Agent := Obstruction → Option PingResp → TurnAction

/-- The Game state: the maze, the three positions, the round counter, the
configured maximum, the pending-ping flag and the status. -/
structure Game where
  maze : Maze
  pos0 : Position
  pos1 : Position
  posB : Position
  round : Nat
  max_rounds : Nat
  ping : Bool
  status : Status
deriving DecidableEq, Repr

/-- self.position[player]. -/
def Game.posOf (g : Game) : Role → Position
  | .g0 => g.pos0
  | .g1 => g.pos1
  | .bd => g.posB

/-- Updating self.position[player]. -/
def Game.setPos (g : Game) : Role → Position → Game
  | .g0, p => { g with pos0 := p }
  | .g1, p => { g with pos1 := p }
  | .bd, p => { g with posB := p }

/-- Game._ping_response_for_player: the other players mapped to their
position minus the receiving player's position. -/
def pingRespFor (g : Game) (r : Role) : PingResp :=
  (players.filter (fun o => o != r)).map (fun o => (o, g.posOf o - g.posOf r))

/-- The game-over check ending each acting player's turn in do_round:
for a Goody mover, goodies meeting is checked before walking into the
baddy; for the Baddy mover, catching either goody. -/
def checkGameOver (g : Game) : Role → Game
  | .g0 =>
    if g.pos0 = g.pos1 then { g with status := .goodiesWin }
    else if g.pos0 = g.posB then { g with status := .baddyWins }
    else g
  | .g1 =>
    if g.pos0 = g.pos1 then { g with status := .goodiesWin }
    else if g.pos1 = g.posB then { g with status := .baddyWins }
    else g
  | .bd =>
    if g.posB = g.pos0 ∨ g.posB = g.pos1 then { g with status := .baddyWins }
    else g

/-- One player's turn inside the do_round loop: compute the obstruction
snapshot at the player's current position, call take_turn, handle the
no-action cases, apply a ping or a move, then run the game-over check.
An invalid return value raises (the STEP KeyError). -/
def turnFor (g : Game) (a : Agent) (resp : Option PingResp) (r : Role) : Except String Game :=
  let obs := g.maze.obstruction (g.posOf r)
  match a obs resp with
  | .invalid _ => .error "KeyError: STEP"
  | .move m =>
    if m = .stay ∨ (m.isDir = true ∧ obs.look m = true) ∨ (m = .ping ∧ r = .bd) then
      .ok g
    else if m = .ping then
      .ok (checkGameOver { g with ping := true } r)
    else
      .ok (checkGameOver (g.setPos r (g.posOf r + step m)) r)

/-- The player loop of do_round: goody0, then goody1, then the baddy, each
turn followed by the break on a terminal status. -/
def processPlayers (g : Game) (a0 a1 ab : Agent) (resp : Role → Option PingResp) :
    Except String Game :=
  match turnFor g a0 (resp .g0) .g0 with
  | .error e => .error e
  | .ok g1 =>
    if g1.status ≠ .inPlay then .ok g1
    else
      match turnFor g1 a1 (resp .g1) .g1 with
      | .error e => .error e
      | .ok g2 =>
        if g2.status ≠ .inPlay then .ok g2
        else turnFor g2 ab (resp .bd) .bd

/-- Game.do_round: status entry handling, the round increment and the
max_rounds draw cap, ping-response preparation, then the player loop. -/
def do_round (g0 : Game) (a0 a1 ab : Agent) : Except String Game :=
  let g := if g0.status = .notStarted then { g0 with status := .inPlay } else g0
  if g.status ≠ .inPlay then .ok g
  else
    let g1 := { g with round := g.round + 1 }
    if g1.round = g1.max_rounds then .ok { g1 with status := .draw }
    else if g1.ping then
      processPlayers { g1 with ping := false } a0 a1 ab (fun r => some (pingRespFor g1 r))
    else
      processPlayers g1 a0 a1 ab (fun _ => none)

/-- Game.play, with explicit fuel standing for the unbounded while loop
(`.ok none` means the fuel ran out with the game still in play; Python
would simply keep looping). Agents are indexed by the round number at
which they are called, rendering their statefulness. The observation hook
is side-effect only and is not modelled. -/
def play (fuel : Nat) (g : Game) (a0 a1 ab : Nat → Agent) :
    Except String (Option (Status × Nat)) :=
  match fuel with
  | 0 => .ok none
  | f + 1 =>
    match do_round g (a0 g.round) (a1 g.round) (ab g.round) with
    | .error e => .error e
    | .ok g2 =>
      if g2.status ≠ .inPlay then .ok (some (g2.status, g2.round))
      else play f g2 a0 a1 ab

/-- The inner retry loop of Game._place_players for one player: walk the
draw stream from index i with the given remaining attempt budget, accept
the first draw that is an empty cell not already taken, and return it with
the next unused stream index. -/
def tryPlace (m : Maze) (taken : List Position) (draws : Nat → Position) :
    Nat → Nat → Option (Position × Nat)
  | _, 0 => none
  | i, fuel + 1 =>
    let p := draws i
    if p ∉ taken ∧ m.getItem p = Maze.space then some (p, i + 1)
    else tryPlace m taken draws (i + 1) fuel

/-- Game._place_players: place goody0, goody1, then the baddy, each with a
budget of 1000 attempts; exhausting any budget raises (the maze is too
dense). -/
def place_players (m : Maze) (draws : Nat → Position) :
    Except String (Position × Position × Position) :=
  match tryPlace m [] draws 0 1000 with
  | none => .error "placement failed"
  | some (p0, i1) =>
    match tryPlace m [p0] draws i1 1000 with
    | none => .error "placement failed"
    | some (p1, i2) =>
      match tryPlace m [p0, p1] draws i2 1000 with
      | none => .error "placement failed"
      | some (pb, _) => .ok (p0, p1, pb)

/-- Game.__init__: place the players, then start with round 0, no pending
ping, and status not started. -/
def Game.init (m : Maze) (max_rounds : Nat) (draws : Nat → Position) :
    Except String Game :=
  match place_players m draws with
  | .error e => .error e
  | .ok (p0, p1, pb) =>
    .ok { maze := m, pos0 := p0, pos1 := p1, posB := pb,
          round := 0, max_rounds := max_rounds, ping := false, status := .notStarted }

/-- An agent's position is on an in-bounds open cell (out-of-bounds reads
report wall, so reading space already forces in-bounds). -/
def okPos (m : Maze) (p : Position) : Prop :=
  m.getItem p = Maze.space

instance (m : Maze) (p : Position) : Decidable (okPos m p) := by
  unfold okPos
  infer_instance

/-- The always-STAY agent, used for concrete witnesses. -/
def stayAgent : Agent := fun _ _ => .move .stay

/-! ## Spec-side transcription of the per-round state machine (claim C1)

The following definitions transcribe the round-resolution rules from the
specification wording (fixed order goody0, goody1, baddy; obstruction
recomputed from the current position at the moment of the turn; after any
state-changing action the terminal checks run immediately, goodies_win
before baddy_wins for a Goody mover; once a terminal status is set no
further agent acts). They are deliberately structured differently from
do_round above so that proving the two equal is a genuine comparison. -/

/-- Spec wording of the immediate terminal check after a state-changing
action by the given mover. -/
def specTerminalCheck (g : Game) (mover : Role) : Game :=
  if mover = .bd then
    if g.posB = g.pos0 ∨ g.posB = g.pos1 then { g with status := .baddyWins } else g
  else
    if g.pos0 = g.pos1 then { g with status := .goodiesWin }
    else if g.posOf mover = g.posB then { g with status := .baddyWins }
    else g

/-- Spec wording of a single agent's turn: obstruction from the current
position, the three no-op cases as separate rules, then the ping case or
the directional case followed by the immediate terminal check. -/
def specTurn (g : Game) (a : Agent) (resp : Option PingResp) (r : Role) :
    Except String Game :=
  let obs := g.maze.obstruction (g.posOf r)
  match a obs resp with
  | .invalid _ => .error "KeyError: STEP"
  | .move m =>
    if m = .stay then .ok g
    else if m.isDir = true ∧ obs.look m = true then .ok g
    else if r = .bd ∧ m = .ping then .ok g
    else if m = .ping then .ok (specTerminalCheck { g with ping := true } r)
    else .ok (specTerminalCheck (g.setPos r (g.posOf r + step m)) r)

/-- Selecting the agent seated in a role. -/
def agentOf (a0 a1 ab : Agent) : Role → Agent
  | .g0 => a0
  | .g1 => a1
  | .bd => ab

/-- Spec wording of the agent-processing loop: walk the fixed player
order, and before each turn stop if a terminal status has been set. -/
def specLoop (ag : Role → Agent) (resp : Role → Option PingResp) :
    List Role → Game → Except String Game
  | [], g => .ok g
  | r :: rest, g =>
    if g.status = .inPlay then
      match specTurn g (ag r) (resp r) r with
      | .error e => .error e
      | .ok g2 => specLoop ag resp rest g2
    else .ok g

/-- Spec wording of one whole round (the numbered steps of the round
resolution section): terminal statuses are absorbing; not-started becomes
in-play; the round counter is incremented and the draw cap checked; ping
responses are computed from the positions as they stand before any move of
this round and the flag cleared; then the player loop runs. -/
def roundSpec (g0 : Game) (a0 a1 ab : Agent) : Except String Game :=
  if g0.status = .goodiesWin ∨ g0.status = .baddyWins ∨ g0.status = .draw then .ok g0
  else
    let g := if g0.status = .notStarted then { g0 with status := .inPlay } else g0
    let g := { g with round := g.round + 1 }
    if g.round = g.max_rounds then .ok { g with status := .draw }
    else
      let resp : Role → Option PingResp :=
        if g.ping then fun r => some (pingRespFor g r) else fun _ => none
      let g := if g.ping then { g with ping := false } else g
      specLoop (agentOf a0 a1 ab) resp players g
/-- An agent that never returns a value outside the six legal moves. -/
def noInvalid (a : Agent) : Prop :=
  ∀ obs resp n, a obs resp ≠ TurnAction.invalid n

/-- A concrete 3 x 1 open maze, used by witnesses. -/
def mazeA : Maze := ⟨3, 1, [[0, 0, 0]]⟩

/-- A concrete fully-walled 1 x 1 maze (zero open cells). -/
def mazeFull : Maze := ⟨1, 1, [[1]]⟩

/-- A concrete 2 x 1 maze with one wall, used by the tiling witness. -/
def mazeB : Maze := ⟨2, 1, [[0, 1]]⟩

/-- A concrete draw stream walking the cells of mazeA left to right. -/
def drawsA : Nat → Position := fun i => ⟨((i % 3 : Nat) : Int), 0⟩

/-- A concrete in-play game on mazeA, used by witnesses. -/
def gameA : Game :=
  ⟨mazeA, ⟨0, 0⟩, ⟨2, 0⟩, ⟨1, 0⟩, 0, 10000, false, Status.inPlay⟩

/-- gameA with a ping pending from the previous round. -/
def gamePing : Game := { gameA with ping := true }

/-- An agent returning an illegal value. -/
def invalidAgent : Agent := fun _ _ => .invalid 0

/-- The game Game.init builds on mazeA from drawsA with max_rounds 0. -/
def gameCap0 : Game :=
  ⟨mazeA, ⟨0, 0⟩, ⟨1, 0⟩, ⟨2, 0⟩, 0, 0, false, Status.notStarted⟩

/-- The game Game.init builds on mazeA from drawsA with max_rounds 1. -/
def gameInit1 : Game :=
  ⟨mazeA, ⟨0, 0⟩, ⟨1, 0⟩, ⟨2, 0⟩, 0, 1, false, Status.notStarted⟩



lemma specTerminalCheck_eq_checkGameOver (g : Game) (r : Role) :
    specTerminalCheck g r = checkGameOver g r := by
  cases r <;> simp [specTerminalCheck, checkGameOver, Game.posOf]

lemma specTurn_eq_turnFor (g : Game) (a : Agent) (resp : Option PingResp) (r : Role) :
    specTurn g a resp r = turnFor g a resp r := by
  unfold specTurn turnFor
  simp only [specTerminalCheck_eq_checkGameOver]
  cases hA : a (g.maze.obstruction (g.posOf r)) resp with
  | invalid n => simp only [hA]
  | move m =>
    simp only [hA]
    by_cases hs : m = .stay
    · simp [hs]
    · by_cases ho : m.isDir = true ∧ (g.maze.obstruction (g.posOf r)).look m = true
      · simp [hs, ho]
      · by_cases hb : m = .ping ∧ r = .bd
        · obtain ⟨hp, hr⟩ := hb
          subst hp
          subst hr
          simp [Move.isDir]
        · by_cases hp : m = .ping
          · subst hp
            have hr : ¬ r = .bd := fun h => hb ⟨rfl, h⟩
            simp [Move.isDir, hr]
          · simp [hs, ho, hb, hp]

lemma specLoop_eq_processPlayers (g : Game) (a0 a1 ab : Agent)
    (resp : Role → Option PingResp) (h : g.status = .inPlay) :
    specLoop (agentOf a0 a1 ab) resp players g = processPlayers g a0 a1 ab resp := by
  unfold processPlayers
  simp only [players, specLoop, specTurn_eq_turnFor, h, if_true, agentOf]
  cases h0 : turnFor g a0 (resp .g0) .g0 with
  | error e => rfl
  | ok g1 =>
    by_cases h1 : g1.status = .inPlay
    · simp only [h1, ne_eq, not_true_eq_false, if_false, if_true, specLoop,
        specTurn_eq_turnFor, agentOf]
      cases h2 : turnFor g1 a1 (resp .g1) .g1 with
      | error e => rfl
      | ok g2 =>
        by_cases h3 : g2.status = .inPlay
        · simp only [h3, ne_eq, not_true_eq_false, if_false, if_true, specLoop,
            specTurn_eq_turnFor, agentOf]
          cases h4 : turnFor g2 ab (resp .bd) .bd with
          | error e => rfl
          | ok g3 => rfl
        · simp [specLoop, h3]
    · simp [specLoop, h1]

/-- **C1.** Within a single round, the engine (do_round) coincides exactly
with the specified state machine: agents are processed in the order goody0,
goody1, baddy; each agent's obstruction snapshot is recomputed from its
current position at the moment of its turn; after any state-changing action
the terminal conditions are checked immediately — for a Goody mover,
goodies_win before baddy_wins against the mover; for the Baddy mover,
baddy_wins against either goody — and once a terminal status is set no
further agent acts in that round. -/
theorem do_round_refines_spec (g : Game) (a0 a1 ab : Agent) :
    do_round g a0 a1 ab = roundSpec g a0 a1 ab := by
  unfold do_round roundSpec
  cases g with
  | mk maze p0 p1 pb rnd mx pg st =>
    cases st <;> simp only [Status.notStarted, reduceCtorEq, if_true, if_false, ne_eq,
      not_true_eq_false, not_false_eq_true, or_self, or_false, false_or, or_true] <;>
      try rfl
    all_goals {
      by_cases hc : rnd + 1 = mx
      · simp [hc]
      · by_cases hp : pg = true
        · simp only [hc, hp, if_true, if_false]
          rw [specLoop_eq_processPlayers]
          rfl
        · simp only [hc, hp, if_true, if_false, Bool.not_eq_true] at hp ⊢
          simp only [hp, if_false, Bool.false_eq_true]
          rw [specLoop_eq_processPlayers]
          rfl
    }

lemma Position.add_sub_cancel_mid (p q : Position) : p + (q - p) = q := by
  cases p with
  | mk px py =>
    cases q with
    | mk qx qy =>
      show Position.mk (px + (qx - px)) (py + (qy - py)) = Position.mk qx qy
      congr 1 <;> omega

/-- **C2.** In every round played from an in-play state that does not hit
the draw cap: if no PING was issued in the previous round every agent's
take_turn receives ping_info None; if one was, the round runs from the
state whose pending-ping flag has been cleared, every agent receives the
mapping computed by Game._ping_response_for_player from the positions as
they stand at the start of the round (before any of this round's moves),
that mapping pairs each other agent with that agent's position minus the
receiver's own, and adding an offset back to the receiver's own start-of-
round position reproduces the other agent's start-of-round position. -/
theorem ping_info_semantics (g : Game) (a0 a1 ab : Agent)
    (hst : g.status = .inPlay) (hcap : g.round + 1 ≠ g.max_rounds) :
    (g.ping = false →
      do_round g a0 a1 ab =
        processPlayers { g with round := g.round + 1 } a0 a1 ab (fun _ => none)) ∧
    (g.ping = true →
      do_round g a0 a1 ab =
        processPlayers { g with round := g.round + 1, ping := false } a0 a1 ab
          (fun r => some (pingRespFor g r))) ∧
    (∀ r o : Role, o ≠ r → (o, g.posOf o - g.posOf r) ∈ pingRespFor g r) ∧
    (∀ (r : Role) (x : Role × Position), x ∈ pingRespFor g r →
      x.1 ≠ r ∧ x.2 = g.posOf x.1 - g.posOf r ∧ g.posOf r + x.2 = g.posOf x.1) := by
  refine ⟨?_, ?_, ?_, ?_⟩
  · intro hp
    unfold do_round
    simp [hst, hcap, hp]
  · intro hp
    unfold do_round
    simp [hst, hcap, hp]
    rfl
  · intro r o ho
    cases r <;> cases o <;>
      first
        | exact absurd rfl ho
        | exact List.Mem.head _
        | exact List.Mem.tail _ (List.Mem.head _)
  · intro r x hx
    have hlist : ∀ s : Role, ∃ o1 o2 : Role, o1 ≠ s ∧ o2 ≠ s ∧
        pingRespFor g s = [(o1, g.posOf o1 - g.posOf s), (o2, g.posOf o2 - g.posOf s)] := by
      intro s
      cases s
      · exact ⟨.g1, .bd, by decide, by decide, rfl⟩
      · exact ⟨.g0, .bd, by decide, by decide, rfl⟩
      · exact ⟨.g0, .g1, by decide, by decide, rfl⟩
    obtain ⟨o1, o2, h1, h2, hl⟩ := hlist r
    rw [hl] at hx
    simp only [List.mem_cons, List.not_mem_nil, or_false] at hx
    rcases hx with rfl | rfl
    · exact ⟨h1, rfl, Position.add_sub_cancel_mid _ _⟩
    · exact ⟨h2, rfl, Position.add_sub_cancel_mid _ _⟩

/-- **C5.** An agent returning any value outside the six legal moves is a
fatal error: the turn raises (the STEP KeyError) instead of being treated
as STAY, and the whole do_round call propagates the error; here stated for
goody0, the first agent called in a round. -/
theorem invalid_return_raises :
    (∀ (g : Game) (a : Agent) (resp : Option PingResp) (r : Role) (n : Nat),
        a (g.maze.obstruction (g.posOf r)) resp = .invalid n →
        turnFor g a resp r = .error "KeyError: STEP") ∧
    (∀ (g : Game) (a0 a1 ab : Agent) (n : Nat),
        g.status = .inPlay → g.round + 1 ≠ g.max_rounds → g.ping = false →
        a0 (g.maze.obstruction g.pos0) none = .invalid n →
        do_round g a0 a1 ab = .error "KeyError: STEP") := by
  constructor
  · intro g a resp r n hA
    unfold turnFor
    simp only [hA]
  · intro g a0 a1 ab n hst hcap hp hA
    have h0 : turnFor { g with round := g.round + 1 } a0 none .g0 = .error "KeyError: STEP" := by
      unfold turnFor
      simp only [Game.posOf]
      simp only [show ({ g with round := g.round + 1 } : Game).maze = g.maze from rfl,
        show ({ g with round := g.round + 1 } : Game).pos0 = g.pos0 from rfl, hA]
    have heq : do_round g a0 a1 ab =
        processPlayers { g with round := g.round + 1 } a0 a1 ab (fun _ => none) := by
      unfold do_round
      simp [hst, hcap, hp]
    rw [heq]
    unfold processPlayers
    rw [h0]

/-- **C7.** The no-op cases: for every state and every agent, if the agent
returns STAY, returns a direction whose obstruction flag is currently
true, or is the Baddy returning PING, its turn leaves the entire game
state (in particular its position and the pending-ping flag) unchanged. -/
theorem noop_turns_change_nothing (g : Game) (a : Agent) (resp : Option PingResp)
    (r : Role) (m : Move)
    (hA : a (g.maze.obstruction (g.posOf r)) resp = .move m)
    (hno : m = .stay ∨
      (m.isDir = true ∧ (g.maze.obstruction (g.posOf r)).look m = true) ∨
      (m = .ping ∧ r = .bd)) :
    turnFor g a resp r = .ok g := by
  unfold turnFor
  simp only [hA]
  simp [hno]

lemma checkGameOver_posOf (g : Game) (r s : Role) :
    (checkGameOver g r).posOf s = g.posOf s := by
  cases r <;> unfold checkGameOver <;> split_ifs <;> cases s <;> rfl

lemma checkGameOver_maze (g : Game) (r : Role) : (checkGameOver g r).maze = g.maze := by
  cases r <;> unfold checkGameOver <;> split_ifs <;> rfl

lemma checkGameOver_round (g : Game) (r : Role) : (checkGameOver g r).round = g.round := by
  cases r <;> unfold checkGameOver <;> split_ifs <;> rfl

lemma checkGameOver_max_rounds (g : Game) (r : Role) :
    (checkGameOver g r).max_rounds = g.max_rounds := by
  cases r <;> unfold checkGameOver <;> split_ifs <;> rfl

lemma checkGameOver_status (g : Game) (r : Role) :
    (checkGameOver g r).status = g.status ∨ (checkGameOver g r).status = .goodiesWin ∨
      (checkGameOver g r).status = .baddyWins := by
  cases r <;> unfold checkGameOver <;> split_ifs <;> simp

lemma setPos_posOf (g : Game) (r : Role) (p : Position) (s : Role) :
    (g.setPos r p).posOf s = if s = r then p else g.posOf s := by
  cases r <;> cases s <;> simp [Game.setPos, Game.posOf]

lemma setPos_maze (g : Game) (r : Role) (p : Position) : (g.setPos r p).maze = g.maze := by
  cases r <;> rfl

lemma setPos_round (g : Game) (r : Role) (p : Position) : (g.setPos r p).round = g.round := by
  cases r <;> rfl

lemma setPos_max_rounds (g : Game) (r : Role) (p : Position) :
    (g.setPos r p).max_rounds = g.max_rounds := by
  cases r <;> rfl

lemma setPos_status (g : Game) (r : Role) (p : Position) :
    (g.setPos r p).status = g.status := by
  cases r <;> rfl

lemma obstruction_look_dir (m : Maze) (p : Position) (mv : Move) (h : mv.isDir = true) :
    (m.obstruction p).look mv = (m.getItem (p + step mv) != 0) := by
  cases mv <;> simp [Move.isDir] at h ⊢ <;> rfl

lemma isDir_of_not_stay_ping {m : Move} (hs : m ≠ .stay) (hp : m ≠ .ping) :
    m.isDir = true := by
  cases m <;> simp_all [Move.isDir]

/-- The combined effect of one turn that returned normally: the maze, the
round counter and the cap are untouched; the status either is unchanged or
has become a win; and each agent's position either is unchanged or now sits
on a cell the maze reads as space. -/
lemma turnFor_ok_cases (g : Game) (a : Agent) (resp : Option PingResp) (r : Role)
    (g2 : Game) (h : turnFor g a resp r = .ok g2) :
    g2.maze = g.maze ∧ g2.round = g.round ∧ g2.max_rounds = g.max_rounds ∧
    (g2.status = g.status ∨ g2.status = .goodiesWin ∨ g2.status = .baddyWins) ∧
    (∀ s, g2.posOf s = g.posOf s ∨ g.maze.getItem (g2.posOf s) = Maze.space) := by
  cases hA : a (g.maze.obstruction (g.posOf r)) resp with
  | invalid n =>
    simp only [turnFor, hA] at h
    exact Except.noConfusion h
  | move m =>
    simp only [turnFor, hA] at h
    by_cases hno : m = .stay ∨ (m.isDir = true ∧ (g.maze.obstruction (g.posOf r)).look m = true) ∨
        (m = .ping ∧ r = .bd)
    · rw [if_pos hno] at h
      injection h with h
      subst h
      exact ⟨rfl, rfl, rfl, Or.inl rfl, fun s => Or.inl rfl⟩
    · rw [if_neg hno] at h
      by_cases hp : m = .ping
      · rw [if_pos hp] at h
        injection h with h
        subst h
        refine ⟨checkGameOver_maze _ _, checkGameOver_round _ _, checkGameOver_max_rounds _ _,
          checkGameOver_status _ _, fun s => Or.inl ?_⟩
        rw [checkGameOver_posOf]
        cases s <;> rfl
      · rw [if_neg hp] at h
        injection h with h
        subst h
        have hs : m ≠ .stay := fun hc => hno (Or.inl hc)
        have hd : m.isDir = true := isDir_of_not_stay_ping hs hp
        have hlook : (g.maze.obstruction (g.posOf r)).look m = false := by
          by_contra hc
          exact hno (Or.inr (Or.inl ⟨hd, by simpa using hc⟩))
        have hspace : g.maze.getItem (g.posOf r + step m) = Maze.space := by
          have := obstruction_look_dir g.maze (g.posOf r) m hd
          rw [hlook] at this
          have hv := this.symm
          simpa [Maze.space, bne_eq_false_iff_eq] using hv
        refine ⟨?_, ?_, ?_, ?_, ?_⟩
        · rw [checkGameOver_maze, setPos_maze]
        · rw [checkGameOver_round, setPos_round]
        · rw [checkGameOver_max_rounds, setPos_max_rounds]
        · rcases checkGameOver_status (g.setPos r (g.posOf r + step m)) r with hc | hc | hc
          · rw [hc, setPos_status]
            exact Or.inl rfl
          · exact Or.inr (Or.inl hc)
          · exact Or.inr (Or.inr hc)
        · intro s
          rw [checkGameOver_posOf, setPos_posOf]
          by_cases hsr : s = r
          · rw [if_pos hsr]
            exact Or.inr hspace
          · rw [if_neg hsr]
            exact Or.inl rfl

/-- The combined effect of the player loop when it returns normally. -/
lemma processPlayers_ok_cases (g : Game) (a0 a1 ab : Agent) (resp : Role → Option PingResp)
    (g3 : Game) (h : processPlayers g a0 a1 ab resp = .ok g3) :
    g3.maze = g.maze ∧ g3.round = g.round ∧ g3.max_rounds = g.max_rounds ∧
    (g3.status = g.status ∨ g3.status = .goodiesWin ∨ g3.status = .baddyWins) ∧
    (∀ s, g3.posOf s = g.posOf s ∨ g.maze.getItem (g3.posOf s) = Maze.space) := by
  unfold processPlayers at h
  cases h0 : turnFor g a0 (resp .g0) .g0 with
  | error e =>
    simp only [h0] at h
    exact Except.noConfusion h
  | ok g1 =>
    simp only [h0] at h
    obtain ⟨hm1, hr1, hx1, hs1, hp1⟩ := turnFor_ok_cases _ _ _ _ _ h0
    have combine : ∀ gnext : Game,
        gnext.maze = g1.maze → gnext.round = g1.round → gnext.max_rounds = g1.max_rounds →
        (gnext.status = g1.status ∨ gnext.status = .goodiesWin ∨ gnext.status = .baddyWins) →
        (∀ s, gnext.posOf s = g1.posOf s ∨ g1.maze.getItem (gnext.posOf s) = Maze.space) →
        gnext.maze = g.maze ∧ gnext.round = g.round ∧ gnext.max_rounds = g.max_rounds ∧
        (gnext.status = g.status ∨ gnext.status = .goodiesWin ∨ gnext.status = .baddyWins) ∧
        (∀ s, gnext.posOf s = g.posOf s ∨ g.maze.getItem (gnext.posOf s) = Maze.space) := by
      intro gn hm hr hx hs hp
      refine ⟨hm.trans hm1, hr.trans hr1, hx.trans hx1, ?_, ?_⟩
      · rcases hs with hs | hs | hs
        · rw [hs]
          exact hs1
        · exact Or.inr (Or.inl hs)
        · exact Or.inr (Or.inr hs)
      · intro s
        rcases hp s with hps | hps
        · rw [hps]
          exact hp1 s
        · rw [hm1] at hps
          exact Or.inr hps
    by_cases hq1 : g1.status ≠ .inPlay
    · rw [if_pos hq1] at h
      injection h with h
      subst h
      exact ⟨hm1, hr1, hx1, hs1, hp1⟩
    · rw [if_neg hq1] at h
      cases h1 : turnFor g1 a1 (resp .g1) .g1 with
      | error e =>
        simp only [h1] at h
        exact Except.noConfusion h
      | ok g2 =>
        simp only [h1] at h
        obtain ⟨hm2, hr2, hx2, hs2, hp2⟩ := turnFor_ok_cases _ _ _ _ _ h1
        by_cases hq2 : g2.status ≠ .inPlay
        · rw [if_pos hq2] at h
          injection h with h
          subst h
          exact combine _ hm2 hr2 hx2 hs2 hp2
        · rw [if_neg hq2] at h
          obtain ⟨hm3, hr3, hx3, hs3, hp3⟩ := turnFor_ok_cases _ _ _ _ _ h
          have mid : g3.maze = g1.maze ∧ g3.round = g1.round ∧ g3.max_rounds = g1.max_rounds ∧
              (g3.status = g1.status ∨ g3.status = .goodiesWin ∨ g3.status = .baddyWins) ∧
              (∀ s, g3.posOf s = g1.posOf s ∨ g1.maze.getItem (g3.posOf s) = Maze.space) := by
            refine ⟨hm3.trans hm2, hr3.trans hr2, hx3.trans hx2, ?_, ?_⟩
            · rcases hs3 with hs | hs | hs
              · rw [hs]
                exact hs2
              · exact Or.inr (Or.inl hs)
              · exact Or.inr (Or.inr hs)
            · intro s
              rcases hp3 s with hps | hps
              · rw [hps]
                exact hp2 s
              · rw [hm2] at hps
                exact Or.inr hps
          exact combine _ mid.1 mid.2.1 mid.2.2.1 mid.2.2.2.1 mid.2.2.2.2

/-- An accepted placement draw is not already taken and reads as space. -/
lemma tryPlace_ok (m : Maze) (taken : List Position) (draws : Nat → Position) :
    ∀ (fuel i : Nat) (p : Position) (j : Nat),
      tryPlace m taken draws i fuel = some (p, j) →
      p ∉ taken ∧ m.getItem p = Maze.space := by
  intro fuel
  induction fuel with
  | zero =>
    intro i p j h
    simp [tryPlace] at h
  | succ f ih =>
    intro i p j h
    unfold tryPlace at h
    by_cases hc : draws i ∉ taken ∧ m.getItem (draws i) = Maze.space
    · rw [if_pos hc] at h
      injection h with h
      obtain ⟨h1, h2⟩ := Prod.mk.injEq .. ▸ h
      exact h1 ▸ hc
    · rw [if_neg hc] at h
      exact ih (i + 1) p j h

/-- A placed triple is pairwise distinct and sits on space cells. -/
lemma place_players_ok (m : Maze) (draws : Nat → Position) (p0 p1 pb : Position)
    (h : place_players m draws = .ok (p0, p1, pb)) :
    (p0 ≠ p1 ∧ p0 ≠ pb ∧ p1 ≠ pb) ∧
    m.getItem p0 = Maze.space ∧ m.getItem p1 = Maze.space ∧ m.getItem pb = Maze.space := by
  unfold place_players at h
  cases t0 : tryPlace m [] draws 0 1000 with
  | none =>
    simp only [t0] at h
    exact Except.noConfusion h
  | some v0 =>
    obtain ⟨q0, i1⟩ := v0
    simp only [t0] at h
    cases t1 : tryPlace m [q0] draws i1 1000 with
    | none =>
      simp only [t1] at h
      exact Except.noConfusion h
    | some v1 =>
      obtain ⟨q1, i2⟩ := v1
      simp only [t1] at h
      cases t2 : tryPlace m [q0, q1] draws i2 1000 with
      | none =>
        simp only [t2] at h
        exact Except.noConfusion h
      | some v2 =>
        obtain ⟨q2, i3⟩ := v2
        simp only [t2] at h
        injection h with h
        injection h with e0 h
        injection h with e1 e2
        subst e0
        subst e1
        subst e2
        obtain ⟨_, hs0⟩ := tryPlace_ok m [] draws 1000 0 _ _ t0
        obtain ⟨hn1, hs1⟩ := tryPlace_ok m _ draws 1000 _ _ _ t1
        obtain ⟨hn2, hs2⟩ := tryPlace_ok m _ draws 1000 _ _ _ t2
        refine ⟨⟨?_, ?_, ?_⟩, hs0, hs1, hs2⟩
        · intro hc
          exact hn1 (by rw [hc]; simp)
        · intro hc
          exact hn2 (by rw [hc]; simp)
        · intro hc
          exact hn2 (by rw [hc]; simp)

/-- A cell reading as space is in bounds (out-of-bounds reads give wall). -/
lemma inBounds_of_getItem_space (m : Maze) (p : Position)
    (h : m.getItem p = Maze.space) : m.inBounds p := by
  by_contra hc
  unfold Maze.inBounds at hc
  unfold Maze.getItem at h
  rw [if_neg hc] at h
  exact absurd h (by decide)

/-- The frame of a whole round that returns normally: the maze and the cap
never change, the round counter grows by at most one, and each position is
unchanged or lands on a cell the maze reads as space. -/
lemma do_round_ok_cases (g : Game) (a0 a1 ab : Agent) (g2 : Game)
    (h : do_round g a0 a1 ab = .ok g2) :
    g2.maze = g.maze ∧ g2.max_rounds = g.max_rounds ∧
    (g2.round = g.round ∨ g2.round = g.round + 1) ∧
    (∀ s, g2.posOf s = g.posOf s ∨ g.maze.getItem (g2.posOf s) = Maze.space) := by
  cases hst : g.status with
  | notStarted =>
    simp only [do_round, hst, reduceCtorEq, reduceIte, ne_eq, not_true_eq_false,
      not_false_eq_true, if_true, if_false] at h
    split at h
    · injection h with h
      subst h
      exact ⟨rfl, rfl, Or.inr rfl, fun s => Or.inl (by cases s <;> rfl)⟩
    · split at h
      · obtain ⟨hm, hr, hx, _, hpos⟩ := processPlayers_ok_cases _ _ _ _ _ _ h
        exact ⟨hm, hx, Or.inr hr, hpos⟩
      · obtain ⟨hm, hr, hx, _, hpos⟩ := processPlayers_ok_cases _ _ _ _ _ _ h
        exact ⟨hm, hx, Or.inr hr, hpos⟩
  | inPlay =>
    simp only [do_round, hst, reduceCtorEq, reduceIte, ne_eq, not_true_eq_false,
      not_false_eq_true, if_true, if_false] at h
    split at h
    · injection h with h
      subst h
      exact ⟨rfl, rfl, Or.inr rfl, fun s => Or.inl (by cases s <;> rfl)⟩
    · split at h
      · obtain ⟨hm, hr, hx, _, hpos⟩ := processPlayers_ok_cases _ _ _ _ _ _ h
        exact ⟨hm, hx, Or.inr hr, hpos⟩
      · obtain ⟨hm, hr, hx, _, hpos⟩ := processPlayers_ok_cases _ _ _ _ _ _ h
        exact ⟨hm, hx, Or.inr hr, hpos⟩
  | goodiesWin =>
    simp only [do_round, hst, reduceCtorEq, reduceIte, ne_eq, not_true_eq_false,
      not_false_eq_true, if_true, if_false] at h
    injection h with h
    subst h
    exact ⟨rfl, rfl, Or.inl rfl, fun s => Or.inl rfl⟩
  | baddyWins =>
    simp only [do_round, hst, reduceCtorEq, reduceIte, ne_eq, not_true_eq_false,
      not_false_eq_true, if_true, if_false] at h
    injection h with h
    subst h
    exact ⟨rfl, rfl, Or.inl rfl, fun s => Or.inl rfl⟩
  | draw =>
    simp only [do_round, hst, reduceCtorEq, reduceIte, ne_eq, not_true_eq_false,
      not_false_eq_true, if_true, if_false] at h
    injection h with h
    subst h
    exact ⟨rfl, rfl, Or.inl rfl, fun s => Or.inl rfl⟩

/-- **C3.** Provided the maze is not mutated, agents always sit on
in-bounds open cells: Game construction (random placement) only accepts
open in-bounds cells, and every round preserves the property because a
directional move into a cell reading as wall (including out of bounds) is
rejected; the round also never replaces the maze. -/
theorem agent_positions_always_open :
    (∀ (m : Maze) (mr : Nat) (draws : Nat → Position) (g : Game),
        Game.init m mr draws = .ok g →
        g.maze = m ∧ ∀ s, okPos g.maze (g.posOf s) ∧ g.maze.inBounds (g.posOf s)) ∧
    (∀ (g : Game) (a0 a1 ab : Agent) (g2 : Game),
        do_round g a0 a1 ab = .ok g2 →
        (∀ s, okPos g.maze (g.posOf s)) →
        g2.maze = g.maze ∧ ∀ s, okPos g2.maze (g2.posOf s) ∧ g2.maze.inBounds (g2.posOf s)) := by
  constructor
  · intro m mr draws g h
    unfold Game.init at h
    cases hpl : place_players m draws with
    | error e =>
      rw [hpl] at h
      exact Except.noConfusion h
    | ok triple =>
      obtain ⟨p0, p1, pb⟩ := triple
      rw [hpl] at h
      injection h with h
      subst h
      obtain ⟨_, hs0, hs1, hs2⟩ := place_players_ok m draws p0 p1 pb hpl
      refine ⟨rfl, fun s => ?_⟩
      cases s
      · exact ⟨hs0, inBounds_of_getItem_space _ _ hs0⟩
      · exact ⟨hs1, inBounds_of_getItem_space _ _ hs1⟩
      · exact ⟨hs2, inBounds_of_getItem_space _ _ hs2⟩
  · intro g a0 a1 ab g2 h hok
    obtain ⟨hm, _, _, hpos⟩ := do_round_ok_cases g a0 a1 ab g2 h
    refine ⟨hm, fun s => ?_⟩
    have hsp : g.maze.getItem (g2.posOf s) = Maze.space := by
      rcases hpos s with he | he
      · rw [he]
        exact hok s
      · exact he
    rw [hm]
    exact ⟨hsp, inBounds_of_getItem_space _ _ hsp⟩

/-- A valid agent's turn always returns normally. -/
lemma turnFor_ok_of_valid (g : Game) (a : Agent) (resp : Option PingResp) (r : Role)
    (hv : noInvalid a) : ∃ g2, turnFor g a resp r = .ok g2 := by
  unfold turnFor
  cases hA : a (g.maze.obstruction (g.posOf r)) resp with
  | invalid n => exact absurd hA (hv _ _ n)
  | move m =>
    simp only [hA]
    split
    · exact ⟨g, rfl⟩
    · split
      · exact ⟨_, rfl⟩
      · exact ⟨_, rfl⟩

/-- The player loop returns normally when all three agents are valid. -/
lemma processPlayers_ok_of_valid (g : Game) (a0 a1 ab : Agent) (resp : Role → Option PingResp)
    (hv0 : noInvalid a0) (hv1 : noInvalid a1) (hvb : noInvalid ab) :
    ∃ g3, processPlayers g a0 a1 ab resp = .ok g3 := by
  obtain ⟨g1, h1⟩ := turnFor_ok_of_valid g a0 (resp .g0) .g0 hv0
  obtain ⟨g2, h2⟩ := turnFor_ok_of_valid g1 a1 (resp .g1) .g1 hv1
  obtain ⟨g3, h3⟩ := turnFor_ok_of_valid g2 ab (resp .bd) .bd hvb
  unfold processPlayers
  simp only [h1]
  by_cases hq1 : g1.status ≠ .inPlay
  · rw [if_pos hq1]
    exact ⟨g1, rfl⟩
  · rw [if_neg hq1]
    simp only [h2]
    by_cases hq2 : g2.status ≠ .inPlay
    · rw [if_pos hq2]
      exact ⟨g2, rfl⟩
    · rw [if_neg hq2]
      exact ⟨g3, h3⟩

/-- One round from a non-terminal state with valid agents: the call returns
normally, increments the round counter by exactly one, leaves the cap and
the maze alone, never returns to not-started, and can remain in play only
when the incremented counter has not reached the cap. -/
lemma do_round_progress (g : Game) (a0 a1 ab : Agent)
    (hv0 : noInvalid a0) (hv1 : noInvalid a1) (hvb : noInvalid ab)
    (hst : g.status = .notStarted ∨ g.status = .inPlay) :
    ∃ g2, do_round g a0 a1 ab = .ok g2 ∧ g2.round = g.round + 1 ∧
      g2.max_rounds = g.max_rounds ∧ g2.maze = g.maze ∧ g2.status ≠ .notStarted ∧
      (g2.status = .inPlay → g.round + 1 ≠ g.max_rounds) := by
  rcases hst with hst | hst
  all_goals {
    simp only [do_round, hst, reduceCtorEq, reduceIte, ne_eq, not_true_eq_false,
      not_false_eq_true, if_true, if_false]
    by_cases hcap : g.round + 1 = g.max_rounds
    · rw [if_pos hcap]
      refine ⟨_, rfl, rfl, rfl, rfl, by simp, ?_⟩
      intro hcon
      simp at hcon
    · rw [if_neg hcap]
      by_cases hp : g.ping = true
      · rw [if_pos hp]
        obtain ⟨g3, h3⟩ := processPlayers_ok_of_valid _ a0 a1 ab _ hv0 hv1 hvb
        obtain ⟨hm, hr, hx, hs, _⟩ := processPlayers_ok_cases _ _ _ _ _ _ h3
        refine ⟨g3, h3, hr, hx, hm, ?_, fun _ => hcap⟩
        rcases hs with hs | hs | hs <;> rw [hs] <;> simp [hst]
      · rw [if_neg hp]
        obtain ⟨g3, h3⟩ := processPlayers_ok_of_valid _ a0 a1 ab _ hv0 hv1 hvb
        obtain ⟨hm, hr, hx, hs, _⟩ := processPlayers_ok_cases _ _ _ _ _ _ h3
        refine ⟨g3, h3, hr, hx, hm, ?_, fun _ => hcap⟩
        rcases hs with hs | hs | hs <;> rw [hs] <;> simp [hst]
  }

/-- Running play with fuel max_rounds from a non-terminal state below the
cap, with valid agents, reaches a terminal status whose round count never
exceeds the cap. -/
lemma play_bounded (a0 a1 ab : Nat → Agent)
    (hv0 : ∀ i, noInvalid (a0 i)) (hv1 : ∀ i, noInvalid (a1 i))
    (hvb : ∀ i, noInvalid (ab i)) :
    ∀ (fuel : Nat) (g : Game),
      (g.status = .notStarted ∨ g.status = .inPlay) →
      g.round < g.max_rounds → g.max_rounds ≤ g.round + fuel →
      ∃ s n, play fuel g a0 a1 ab = .ok (some (s, n)) ∧ n ≤ g.max_rounds ∧
        s ≠ .inPlay ∧ s ≠ .notStarted := by
  intro fuel
  induction fuel with
  | zero =>
    intro g hst hlt hle
    omega
  | succ f ih =>
    intro g hst hlt hle
    obtain ⟨g2, heq, hr, hx, _, hns, himp⟩ :=
      do_round_progress g (a0 g.round) (a1 g.round) (ab g.round)
        (hv0 _) (hv1 _) (hvb _) hst
    simp only [play, heq]
    by_cases hterm : g2.status = .inPlay
    · rw [if_neg (by simp [hterm])]
      have hlt2 : g2.round < g2.max_rounds := by
        have hne := himp hterm
        omega
      have hle2 : g2.max_rounds ≤ g2.round + f := by omega
      obtain ⟨s, n, hp, hn, hs1, hs2⟩ := ih g2 (Or.inr hterm) hlt2 hle2
      refine ⟨s, n, hp, ?_, hs1, hs2⟩
      omega
    · rw [if_pos hterm]
      refine ⟨g2.status, g2.round, rfl, by omega, hterm, hns⟩

/-- **C4 counterexample.** With a configured max_rounds of 0 (the source
never validates max_rounds, and the draw cap is the equality test
self.round == self.max_rounds), the cap never fires: constructing the game
with max_rounds 0, one advance_round leaves the game in play with round
counter 1 > 0 = max_rounds, and play keeps running past the cap (here five
more rounds with all agents staying, never reaching a terminal status), so
the claimed bound "round count never exceeds max_rounds" is false. -/
theorem max_rounds_cap_cex :
    Game.init mazeA 0 drawsA = .ok gameCap0 ∧
    do_round gameCap0 stayAgent stayAgent stayAgent =
      .ok { gameCap0 with round := 1, status := .inPlay } ∧
    ({ gameCap0 with round := 1, status := .inPlay } : Game).status = .inPlay ∧
    ({ gameCap0 with round := 1, status := .inPlay } : Game).round >
      gameCap0.max_rounds ∧
    play 5 gameCap0 (fun _ => stayAgent) (fun _ => stayAgent) (fun _ => stayAgent) =
      .ok none := by
  refine ⟨rfl, rfl, rfl, by decide, rfl⟩

/-- **C4 (amended).** For a configured max_rounds of at least 1 the cap is
a real deterministic bound: on the advance_round call whose incremented
round counter equals max_rounds the status becomes draw and the call
returns at once with no agent acting; any advance_round call in a terminal
state returns that status unchanged, without touching the round counter;
and play from a fresh game with agents that only return legal moves ends
with a terminal status and a round count of at most max_rounds. For
max_rounds of 0 or below (Python allows negative ints too) the equality
test never fires and the game is unbounded, as the counterexample shows. -/
theorem max_rounds_cap_amended :
    (∀ (g : Game) (a0 a1 ab : Agent),
        (g.status = .notStarted ∨ g.status = .inPlay) →
        g.round + 1 = g.max_rounds →
        do_round g a0 a1 ab = .ok { g with round := g.round + 1, status := .draw }) ∧
    (∀ (g : Game) (a0 a1 ab : Agent),
        (g.status = .goodiesWin ∨ g.status = .baddyWins ∨ g.status = .draw) →
        do_round g a0 a1 ab = .ok g) ∧
    (∀ (g : Game) (a0 a1 ab : Nat → Agent),
        (∀ i, noInvalid (a0 i)) → (∀ i, noInvalid (a1 i)) → (∀ i, noInvalid (ab i)) →
        g.status = .notStarted → g.round = 0 → 1 ≤ g.max_rounds →
        ∃ s n, play g.max_rounds g a0 a1 ab = .ok (some (s, n)) ∧
          n ≤ g.max_rounds ∧ s ≠ .inPlay ∧ s ≠ .notStarted) := by
  refine ⟨?_, ?_, ?_⟩
  · intro g a0 a1 ab hst hcap
    rcases hst with hst | hst <;>
      simp only [do_round, hst, reduceCtorEq, reduceIte, ne_eq, not_true_eq_false,
        not_false_eq_true, if_true, if_false] <;>
      rw [if_pos hcap]
  · intro g a0 a1 ab hst
    rcases hst with hst | hst | hst <;>
      simp only [do_round, hst, reduceCtorEq, reduceIte, ne_eq, not_true_eq_false,
        not_false_eq_true, if_true, if_false]
  · intro g a0 a1 ab hv0 hv1 hvb hst hr0 hcap
    exact play_bounded a0 a1 ab hv0 hv1 hvb g.max_rounds g (Or.inl hst)
      (by omega) (by omega)

lemma getD_mem_or_default {α : Type} (l : List α) (i : Nat) (d : α) :
    l.getD i d ∈ l ∨ l.getD i d = d := by
  by_cases h : i < l.length
  · left
    rw [List.getD_eq_getElem l d h]
    exact List.getElem_mem h
  · right
    exact List.getD_eq_default l d (le_of_not_lt h)

/-- In a maze with no falsy cell, every read (in bounds or not) is
non-space. -/
lemma getItem_ne_space_of_no_empty (m : Maze) (h : m.empty_cells = 0) (p : Position) :
    m.getItem p ≠ Maze.space := by
  have hall : ∀ row ∈ m.cells, ∀ c ∈ row, c ≠ 0 := by
    intro row hrow c hc
    unfold Maze.empty_cells at h
    have hrow0 : row.countP (fun c => c == 0) = 0 := by
      have hz := (List.sum_eq_zero_iff).mp h
      exact hz _ (List.mem_map_of_mem _ hrow)
    have := List.countP_eq_zero.mp hrow0 c hc
    simpa using this
  unfold Maze.getItem
  split_ifs with hin
  · rcases getD_mem_or_default (m.cells.getD p.y.toNat []) p.x.toNat Maze.wall with hc | hc
    · rcases getD_mem_or_default m.cells p.y.toNat [] with hr | hr
      · exact hall _ hr _ hc
      · rw [hr] at hc
        exact absurd hc (List.not_mem_nil _)
    · rw [hc]
      decide
  · decide

/-- With no space cell anywhere, every placement attempt fails. -/
lemma tryPlace_none_of_nospace (m : Maze) (hs : ∀ p, m.getItem p ≠ Maze.space)
    (taken : List Position) (draws : Nat → Position) :
    ∀ fuel i, tryPlace m taken draws i fuel = none := by
  intro fuel
  induction fuel with
  | zero => intro i; rfl
  | succ f ih =>
    intro i
    unfold tryPlace
    rw [if_neg]
    · exact ih (i + 1)
    · intro hcon
      exact hs (draws i) hcon.2

/-- **C6.** Game placement either seats the three agents on pairwise
distinct, in-bounds, open cells — each accepted draw being the first of at
most 1000 stream draws that is open and unoccupied, as the tryPlace
definition states — or fails with the fatal placement error; in
particular, on a maze with zero open cells construction always fails this
way, whatever the random draws are. -/
theorem placement_seats_or_raises :
    (∀ (m : Maze) (draws : Nat → Position) (p0 p1 pb : Position),
        place_players m draws = .ok (p0, p1, pb) →
        (p0 ≠ p1 ∧ p0 ≠ pb ∧ p1 ≠ pb) ∧
        (m.getItem p0 = Maze.space ∧ m.getItem p1 = Maze.space ∧
          m.getItem pb = Maze.space) ∧
        (m.inBounds p0 ∧ m.inBounds p1 ∧ m.inBounds pb)) ∧
    (∀ (m : Maze) (draws : Nat → Position) (mr : Nat),
        m.empty_cells = 0 →
        place_players m draws = .error "placement failed" ∧
        Game.init m mr draws = .error "placement failed") := by
  constructor
  · intro m draws p0 p1 pb h
    obtain ⟨hd, hs0, hs1, hs2⟩ := place_players_ok m draws p0 p1 pb h
    exact ⟨hd, ⟨hs0, hs1, hs2⟩, inBounds_of_getItem_space _ _ hs0,
      inBounds_of_getItem_space _ _ hs1, inBounds_of_getItem_space _ _ hs2⟩
  · intro m draws mr h
    have hs := getItem_ne_space_of_no_empty m h
    have hnone := tryPlace_none_of_nospace m hs [] draws 1000 0
    have hpl : place_players m draws = .error "placement failed" := by
      unfold place_players
      simp only [hnone]
    refine ⟨hpl, ?_⟩
    unfold Game.init
    simp only [hpl]

lemma charToInt_ok_le9 (c : Char) (v : Nat) (h : charToInt c = .ok v) : v ≤ 9 := by
  unfold charToInt at h
  split_ifs at h with hd
  · injection h with h
    subst h
    simp only [Char.isDigit, decide_eq_true_eq, Bool.and_eq_true] at hd
    obtain ⟨h1, h2⟩ := hd
    have h3 : c.toNat ≤ 57 := by
      have hh : c.val.toNat ≤ (57 : UInt32).toNat := h2
      simpa [Char.toNat] using hh
    omega

lemma mapInts_ok_of_digits (cs : List Char) (h : ∀ c ∈ cs, c.isDigit = true) :
    ∃ l, mapInts cs = .ok l ∧ l.length = cs.length := by
  induction cs with
  | nil => exact ⟨[], rfl, rfl⟩
  | cons c cs ih =>
    have hd : c.isDigit = true := h c (by simp)
    obtain ⟨l, hl, hlen⟩ := ih (fun x hx => h x (by simp [hx]))
    refine ⟨(c.toNat - 48) :: l, ?_, by simp [hlen]⟩
    simp only [mapInts, charToInt, hd, if_true, hl]

lemma mapInts_ok_mem_bound (cs : List Char) (l : List Nat) (h : mapInts cs = .ok l) :
    ∀ v ∈ l, v ≤ 9 := by
  induction cs generalizing l with
  | nil =>
    simp only [mapInts] at h
    injection h with h
    subst h
    simp
  | cons c cs ih =>
    simp only [mapInts] at h
    cases hc : charToInt c with
    | error e =>
      rw [hc] at h
      exact Except.noConfusion h
    | ok v0 =>
      rw [hc] at h
      cases hm : mapInts cs with
      | error e =>
        rw [hm] at h
        exact Except.noConfusion h
      | ok vs =>
        rw [hm] at h
        injection h with h
        subst h
        intro v hv
        rcases List.mem_cons.mp hv with rfl | hv
        · exact charToInt_ok_le9 c v hc
        · exact ih vs hm v hv

lemma mapInts_error_msg (cs : List Char) (e : String) (h : mapInts cs = .error e) :
    e = "invalid literal" := by
  induction cs generalizing e with
  | nil => exact Except.noConfusion h
  | cons c cs ih =>
    simp only [mapInts] at h
    cases hc : charToInt c with
    | error e0 =>
      rw [hc] at h
      injection h with h
      subst h
      unfold charToInt at hc
      split_ifs at hc
      injection hc with hc
      exact hc.symm
    | ok v0 =>
      rw [hc] at h
      cases hm : mapInts cs with
      | error e1 =>
        rw [hm] at h
        injection h with h
        subst h
        exact ih e1 hm
      | ok vs =>
        rw [hm] at h
        exact Except.noConfusion h

lemma mapInts_error_of_nondigit (cs : List Char) (h : ∃ c ∈ cs, c.isDigit = false) :
    mapInts cs = .error "invalid literal" := by
  induction cs with
  | nil =>
    obtain ⟨c, hc, _⟩ := h
    exact absurd hc (List.not_mem_nil c)
  | cons c cs ih =>
    obtain ⟨c0, hc0, hnd⟩ := h
    rcases List.mem_cons.mp hc0 with rfl | hc0
    · simp only [mapInts, charToInt, hnd, Bool.false_eq_true, if_false]
    · cases hcd : c.isDigit with
      | false => simp only [mapInts, charToInt, hcd, Bool.false_eq_true, if_false]
      | true =>
        have := ih ⟨c0, hc0, hnd⟩
        simp only [mapInts, charToInt, hcd, if_true, this]

lemma buildRows_ok_of (d : List Char) (w : Nat) (ys : List Nat)
    (h : ∀ y ∈ ys, ∃ row, mapInts ((d.drop (y * w)).take w) = .ok row) :
    ∃ rows, buildRows d w ys = .ok rows ∧ rows.length = ys.length ∧
      ∀ r ∈ rows, ∃ y ∈ ys, mapInts ((d.drop (y * w)).take w) = .ok r := by
  induction ys with
  | nil => exact ⟨[], rfl, rfl, by simp⟩
  | cons y ys ih =>
    obtain ⟨row, hrow⟩ := h y (by simp)
    obtain ⟨rows, hrows, hlen, hmem⟩ := ih (fun x hx => h x (by simp [hx]))
    refine ⟨row :: rows, ?_, by simp [hlen], ?_⟩
    · simp only [buildRows, hrow, hrows]
    · intro r hr
      rcases List.mem_cons.mp hr with rfl | hr
      · exact ⟨y, by simp, hrow⟩
      · obtain ⟨y0, hy0, hm0⟩ := hmem r hr
        exact ⟨y0, by simp [hy0], hm0⟩

lemma buildRows_error_of (d : List Char) (w : Nat) (ys : List Nat)
    (h : ∃ y ∈ ys, mapInts ((d.drop (y * w)).take w) = .error "invalid literal") :
    buildRows d w ys = .error "invalid literal" := by
  induction ys with
  | nil =>
    obtain ⟨y, hy, _⟩ := h
    exact absurd hy (List.not_mem_nil y)
  | cons y ys ih =>
    cases hm : mapInts ((d.drop (y * w)).take w) with
    | error e =>
      have := mapInts_error_msg _ _ hm
      subst this
      simp only [buildRows, hm]
    | ok row =>
      obtain ⟨y0, hy0, hbad⟩ := h
      rcases List.mem_cons.mp hy0 with rfl | hy0
      · rw [hm] at hbad
        exact Except.noConfusion hbad
      · have := ih ⟨y0, hy0, hbad⟩
        simp only [buildRows, hm, this]

/-- Every character of a layout of length w*h lies in the slice of some
row index below h. -/
lemma mem_slice_of_mem (d : List Char) (w h : Nat) (hlen : d.length = w * h)
    (c : Char) (hc : c ∈ d) :
    ∃ y ∈ List.range h, c ∈ (d.drop (y * w)).take w := by
  obtain ⟨k, hk, hck⟩ := List.mem_iff_getElem.mp hc
  have hw : 0 < w := by
    rcases Nat.eq_zero_or_pos w with h0 | h0
    · rw [h0] at hlen
      simp at hlen
      subst hlen
      exact absurd hc (List.not_mem_nil c)
    · exact h0
  have hyh : k / w < h := by
    rw [Nat.div_lt_iff_lt_mul hw]
    have hcomm : w * h = h * w := Nat.mul_comm _ _
    omega
  have hmod : k % w < w := Nat.mod_lt _ hw
  have hsum : k / w * w + k % w = k := by
    have hdm := Nat.div_add_mod k w
    have hcomm : k / w * w = w * (k / w) := Nat.mul_comm _ _
    omega
  refine ⟨k / w, List.mem_range.mpr hyh, ?_⟩
  have hlen2 : k % w < ((d.drop (k / w * w)).take w).length := by
    rw [List.length_take, List.length_drop]
    refine lt_min hmod (Nat.lt_sub_of_add_lt ?_)
    calc k % w + k / w * w = k / w * w + k % w := Nat.add_comm _ _
      _ = k := hsum
      _ < d.length := hk
  refine List.mem_iff_getElem.mpr ⟨k % w, hlen2, ?_⟩
  rw [List.getElem_take]
  rw [List.getElem_drop]
  have hidx : k / w * w + k % w = k := hsum
  simp only [hidx]
  exact hck

lemma mapInts_ok_length (cs : List Char) (l : List Nat) (h : mapInts cs = .ok l) :
    l.length = cs.length := by
  induction cs generalizing l with
  | nil =>
    simp only [mapInts] at h
    injection h with h
    subst h
    rfl
  | cons c cs ih =>
    simp only [mapInts] at h
    cases hc : charToInt c with
    | error e =>
      rw [hc] at h
      exact Except.noConfusion h
    | ok v0 =>
      rw [hc] at h
      cases hm : mapInts cs with
      | error e =>
        rw [hm] at h
        exact Except.noConfusion h
      | ok vs =>
        rw [hm] at h
        injection h with h
        subst h
        simp [ih vs hm]

lemma slice_length (d : List Char) (w h y : Nat) (hlen : d.length = w * h) (hy : y < h) :
    ((d.drop (y * w)).take w).length = w := by
  rw [List.length_take, List.length_drop, hlen]
  have hle : y * w + w ≤ w * h := by
    have h1 : w * (y + 1) ≤ w * h := Nat.mul_le_mul_left w hy
    calc y * w + w = w * (y + 1) := by ring
      _ ≤ w * h := h1
  exact Nat.min_eq_left (by omega)

/-- **C8 counterexample.** The layout symbol check claimed by the spec does
not exist: the constructor maps each character through int(), so the digit
2 is accepted (Maze(1, 1, "2") constructs successfully) and the resulting
cell holds the value 2, which is neither space (0) nor wall (1). -/
theorem layout_digit_cex :
    Maze.init 1 1 (some ['2']) = .ok ⟨1, 1, [[2]]⟩ ∧
    (⟨1, 1, [[2]]⟩ : Maze).getItem ⟨0, 0⟩ ≠ Maze.space ∧
    (⟨1, 1, [[2]]⟩ : Maze).getItem ⟨0, 0⟩ ≠ Maze.wall := by
  refine ⟨rfl, by decide, by decide⟩

/-- **C8 (amended).** Maze construction with a supplied layout fails with
the wrong-length error when the layout's length differs from width*height,
and fails with the int() conversion error when the layout contains a
character that is not a decimal digit; but digit characters other than 0
and 1 are accepted unchanged, so all a successfully constructed maze
guarantees is that every cell holds a digit value (at most 9) — not that
every cell is exactly space or wall. -/
theorem layout_validation (w h : Nat) (d : List Char) :
    (d.length ≠ w * h → Maze.init w h (some d) = .error "wrong data length") ∧
    (d.length = w * h → (∃ c ∈ d, c.isDigit = false) →
      Maze.init w h (some d) = .error "invalid literal") ∧
    (d.length = w * h → (∀ c ∈ d, c.isDigit = true) →
      ∃ m, Maze.init w h (some d) = .ok m ∧ m.width = w ∧ m.height = h ∧
        m.wellFormed ∧ ∀ row ∈ m.cells, ∀ v ∈ row, v ≤ 9) := by
  refine ⟨?_, ?_, ?_⟩
  · intro hne
    simp only [Maze.init]
    rw [if_pos hne]
  · intro hlen hex
    obtain ⟨c, hc, hnd⟩ := hex
    obtain ⟨y, hy, hcy⟩ := mem_slice_of_mem d w h hlen c hc
    have hrow := mapInts_error_of_nondigit _ ⟨c, hcy, hnd⟩
    have hb := buildRows_error_of d w (List.range h) ⟨y, hy, hrow⟩
    simp only [Maze.init, hb]
    rw [if_neg (by simp [hlen])]
  · intro hlen hdig
    have hok : ∀ y ∈ List.range h, ∃ row, mapInts ((d.drop (y * w)).take w) = .ok row := by
      intro y hy
      obtain ⟨l, hl, _⟩ := mapInts_ok_of_digits _
        (fun c hcs => hdig c (List.mem_of_mem_drop (List.mem_of_mem_take hcs)))
      exact ⟨l, hl⟩
    obtain ⟨rows, hrows, hrlen, hrmem⟩ := buildRows_ok_of d w (List.range h) hok
    refine ⟨⟨w, h, rows.reverse⟩, ?_, rfl, rfl, ⟨by simp [hrlen], ?_⟩, ?_⟩
    · simp only [Maze.init, hrows]
      rw [if_neg (by simp [hlen])]
    · intro row hrow
      rw [List.mem_reverse] at hrow
      obtain ⟨y, hy, hm⟩ := hrmem row hrow
      rw [mapInts_ok_length _ _ hm]
      exact slice_length d w h y hlen (List.mem_range.mp hy)
    · intro row hrow v hv
      rw [List.mem_reverse] at hrow
      obtain ⟨y, hy, hm⟩ := hrmem row hrow
      exact mapInts_ok_mem_bound _ _ hm v hv

/-- **C9 counterexample.** Obstruction flags are the truthiness of the
neighbouring cell, not literally cell == wall: in the constructible maze
Maze(2, 1, "20") the cell at (0, 0) holds 2, so obstruction((1, 0)).left
is True although that cell does not equal wall. -/
theorem obstruction_wall_cex :
    Maze.init 2 1 (some ['2', '0']) = .ok ⟨2, 1, [[2, 0]]⟩ ∧
    ((⟨2, 1, [[2, 0]]⟩ : Maze).obstruction ⟨1, 0⟩).look .left = true ∧
    (⟨2, 1, [[2, 0]]⟩ : Maze).getItem (⟨1, 0⟩ + step .left) ≠ Maze.wall := by
  refine ⟨rfl, rfl, by decide⟩

/-- **C9 (amended).** Reading a cell never raises and reports wall for
every position outside [0,W) x [0,H); each obstruction flag is the
truthiness (non-space-ness) of the cell one step away — which coincides
with the claimed comparison against wall exactly when every stored cell is
space or wall (true of every maze built without a layout or from a layout
of 0s and 1s, but not of every constructible maze). -/
theorem obstruction_semantics (m : Maze) (p : Position) :
    (¬ m.inBounds p → m.getItem p = Maze.wall) ∧
    (∀ mv : Move, mv.isDir = true →
      (m.obstruction p).look mv = (m.getItem (p + step mv) != 0)) ∧
    ((∀ row ∈ m.cells, ∀ v ∈ row, v = Maze.space ∨ v = Maze.wall) →
      ∀ mv : Move, mv.isDir = true →
        ((m.obstruction p).look mv = true ↔ m.getItem (p + step mv) = Maze.wall)) := by
  refine ⟨?_, ?_, ?_⟩
  · intro hob
    unfold Maze.inBounds at hob
    unfold Maze.getItem
    rw [if_neg hob]
  · exact obstruction_look_dir m p
  · intro hbin mv hd
    rw [obstruction_look_dir m p mv hd]
    have hval : m.getItem (p + step mv) = Maze.space ∨ m.getItem (p + step mv) = Maze.wall := by
      unfold Maze.getItem
      split_ifs with hin
      · rcases getD_mem_or_default (m.cells.getD (p + step mv).y.toNat [])
          (p + step mv).x.toNat Maze.wall with hc | hc
        · rcases getD_mem_or_default m.cells (p + step mv).y.toNat [] with hr | hr
          · exact hbin _ hr _ hc
          · rw [hr] at hc
            exact absurd hc (List.not_mem_nil _)
        · rw [hc]
          exact Or.inr rfl
      · exact Or.inr rfl
    rcases hval with hv | hv <;> rw [hv] <;> decide

lemma flatten_replicate_length {α : Type} (n : Nat) (l : List α) :
    (List.replicate n l).flatten.length = n * l.length := by
  induction n with
  | zero => simp
  | succ k ih =>
    rw [List.replicate_succ, List.flatten_cons]
    simp only [List.length_append, ih]
    ring

lemma flatten_replicate_getD {α : Type} (n : Nat) (l : List α) (i : Nat) (d : α)
    (hi : i < n * l.length) :
    (List.replicate n l).flatten.getD i d = l.getD (i % l.length) d := by
  induction n generalizing i with
  | zero => simp at hi
  | succ k ih =>
    rw [List.replicate_succ, List.flatten_cons]
    by_cases hlt : i < l.length
    · rw [List.getD_append _ _ _ _ hlt, Nat.mod_eq_of_lt hlt]
    · have hge : l.length ≤ i := le_of_not_lt hlt
      rw [List.getD_append_right _ _ _ _ hge]
      have hsm : (k + 1) * l.length = k * l.length + l.length := Nat.succ_mul k l.length
      have hi2 : i - l.length < k * l.length := by omega
      rw [ih (i - l.length) hi2, Nat.mod_eq_sub_mod hge]

/-- **C10.** Tiling (maze * (a, b)): the result has width W*a and height
H*b, is well formed, and its cell at every in-range (x, y) equals the
source cell at (x mod W, y mod H). The tiled rows are freshly built
concatenations (the source's list-repetition), so in this value model the
source maze is untouched by construction; the Python code likewise copies
each row (list * int allocates a new list). -/
theorem tile_formula (m : Maze) (a b : Nat) (hwf : m.wellFormed) :
    (m.tile a b).width = m.width * a ∧ (m.tile a b).height = m.height * b ∧
    (m.tile a b).wellFormed ∧
    ∀ (x y : Nat), x < m.width * a → y < m.height * b →
      (m.tile a b).getItem ⟨(x : Int), (y : Int)⟩ =
        m.getItem ⟨((x % m.width : Nat) : Int), ((y % m.height : Nat) : Int)⟩ := by
  obtain ⟨hclen, hrows⟩ := hwf
  have hblock : ((List.range m.height).map
      (fun y => (List.replicate a (m.cells.getD y [])).flatten)).length = m.height := by
    simp
  have hrow_mem : ∀ j, j < m.height → m.cells.getD j [] ∈ m.cells := by
    intro j hj
    rw [List.getD_eq_getElem m.cells [] (by omega : j < m.cells.length)]
    exact List.getElem_mem _
  have hrow_len : ∀ j, j < m.height → (m.cells.getD j []).length = m.width := by
    intro j hj
    exact hrows _ (hrow_mem j hj)
  refine ⟨rfl, rfl, ⟨?_, ?_⟩, ?_⟩
  · show (List.replicate b _).flatten.length = m.height * b
    rw [flatten_replicate_length, hblock]
    ring
  · intro row hrow
    obtain ⟨l, hl, hrl⟩ := List.mem_flatten.mp hrow
    have hlb : l = (List.range m.height).map
        (fun y => (List.replicate a (m.cells.getD y [])).flatten) :=
      (List.eq_of_mem_replicate hl)
    subst hlb
    obtain ⟨j, hj, hfj⟩ := List.mem_map.mp hrl
    have hjh : j < m.height := List.mem_range.mp hj
    show row.length = m.width * a
    rw [← hfj, flatten_replicate_length, hrow_len j hjh]
    ring
  · intro x y hx hy
    have hw : 0 < m.width := by
      rcases Nat.eq_zero_or_pos m.width with h0 | h0
      · rw [h0] at hx
        simp at hx
      · exact h0
    have hh : 0 < m.height := by
      rcases Nat.eq_zero_or_pos m.height with h0 | h0
      · rw [h0] at hy
        simp at hy
      · exact h0
    have hxm : x % m.width < m.width := Nat.mod_lt _ hw
    have hym : y % m.height < m.height := Nat.mod_lt _ hh
    have hL : (m.tile a b).getItem ⟨(x : Int), (y : Int)⟩ =
        (((m.tile a b).cells.getD y []).getD x Maze.wall) := by
      unfold Maze.getItem
      rw [if_pos]
      · simp only [Int.toNat_natCast]
      · refine ⟨Int.natCast_nonneg x, ?_, Int.natCast_nonneg y, ?_⟩
        · show (x : Int) < ((m.width * a : Nat) : Int)
          exact_mod_cast hx
        · show (y : Int) < ((m.height * b : Nat) : Int)
          exact_mod_cast hy
    have hR : m.getItem ⟨((x % m.width : Nat) : Int), ((y % m.height : Nat) : Int)⟩ =
        ((m.cells.getD (y % m.height) []).getD (x % m.width) Maze.wall) := by
      unfold Maze.getItem
      rw [if_pos]
      · simp only [Int.toNat_natCast]
      · refine ⟨Int.natCast_nonneg _, ?_, Int.natCast_nonneg _, ?_⟩
        · show ((x % m.width : Nat) : Int) < (m.width : Int)
          exact_mod_cast hxm
        · show ((y % m.height : Nat) : Int) < (m.height : Int)
          exact_mod_cast hym
    rw [hL, hR]
    have hyb : y < b * ((List.range m.height).map
        (fun y => (List.replicate a (m.cells.getD y [])).flatten)).length := by
      rw [hblock]
      calc y < m.height * b := hy
        _ = b * m.height := Nat.mul_comm _ _
    have step1 : (m.tile a b).cells.getD y [] =
        ((List.range m.height).map
          (fun y => (List.replicate a (m.cells.getD y [])).flatten)).getD
            (y % ((List.range m.height).map
              (fun y => (List.replicate a (m.cells.getD y [])).flatten)).length) [] := by
      show ((List.replicate b _).flatten).getD y [] = _
      exact flatten_replicate_getD b _ y [] hyb
    rw [step1, hblock]
    have step2 : ((List.range m.height).map
        (fun y => (List.replicate a (m.cells.getD y [])).flatten)).getD (y % m.height) [] =
        (List.replicate a (m.cells.getD (y % m.height) [])).flatten := by
      rw [List.getD_eq_getElem _ [] (by rw [hblock]; exact hym)]
      simp
    rw [step2]
    have hxa : x < a * (m.cells.getD (y % m.height) []).length := by
      rw [hrow_len _ hym]
      calc x < m.width * a := hx
        _ = a * m.width := Nat.mul_comm _ _
    rw [flatten_replicate_getD a _ x Maze.wall hxa, hrow_len _ hym]

lemma stayAgent_noInvalid : noInvalid stayAgent :=
  fun _ _ _ h => TurnAction.noConfusion h

/-- Witness for C2 at a concrete game with a pending ping. -/
theorem ping_info_semantics_witness :
    (do_round gamePing stayAgent stayAgent stayAgent =
      processPlayers { gamePing with round := gamePing.round + 1, ping := false }
        stayAgent stayAgent stayAgent (fun r => some (pingRespFor gamePing r))) ∧
    (Role.g1, gamePing.posOf .g1 - gamePing.posOf .g0) ∈ pingRespFor gamePing .g0 := by
  constructor
  · exact (ping_info_semantics gamePing stayAgent stayAgent stayAgent rfl
      (by decide)).2.1 rfl
  · exact (ping_info_semantics gamePing stayAgent stayAgent stayAgent rfl
      (by decide)).2.2.1 .g0 .g1 (by decide)

/-- Witness for C3 at a concrete placement and a concrete round. -/
theorem agent_positions_always_open_witness :
    (gameCap0.maze = mazeA ∧ ∀ s, okPos gameCap0.maze (gameCap0.posOf s) ∧
      gameCap0.maze.inBounds (gameCap0.posOf s)) ∧
    ({ gameA with round := 1 } : Game).maze = gameA.maze := by
  constructor
  · exact agent_positions_always_open.1 mazeA 0 drawsA gameCap0 rfl
  · exact (agent_positions_always_open.2 gameA stayAgent stayAgent stayAgent
      { gameA with round := 1 } rfl (fun s => by cases s <;> decide)).1

/-- Witness for the amended C4 at concrete games. -/
theorem max_rounds_cap_witness :
    (do_round { gameA with max_rounds := 1 } stayAgent stayAgent stayAgent =
      .ok { gameA with max_rounds := 1, round := 1, status := .draw }) ∧
    (do_round { gameA with status := .draw } stayAgent stayAgent stayAgent =
      .ok { gameA with status := .draw }) ∧
    (∃ s n, play gameInit1.max_rounds gameInit1
        (fun _ => stayAgent) (fun _ => stayAgent) (fun _ => stayAgent) =
      .ok (some (s, n)) ∧ n ≤ gameInit1.max_rounds ∧ s ≠ .inPlay ∧ s ≠ .notStarted) := by
  refine ⟨?_, ?_, ?_⟩
  · exact max_rounds_cap_amended.1 _ stayAgent stayAgent stayAgent (Or.inr rfl) (by decide)
  · exact max_rounds_cap_amended.2.1 _ stayAgent stayAgent stayAgent (Or.inr (Or.inr rfl))
  · exact max_rounds_cap_amended.2.2 gameInit1 _ _ _
      (fun _ => stayAgent_noInvalid) (fun _ => stayAgent_noInvalid)
      (fun _ => stayAgent_noInvalid) rfl rfl (by decide)

/-- Witness for C5 at a concrete game and invalid agent. -/
theorem invalid_return_raises_witness :
    turnFor gameA invalidAgent none .g0 = .error "KeyError: STEP" ∧
    do_round gameA invalidAgent stayAgent stayAgent = .error "KeyError: STEP" := by
  constructor
  · exact invalid_return_raises.1 gameA invalidAgent none .g0 0 rfl
  · exact invalid_return_raises.2 gameA invalidAgent stayAgent stayAgent 0 rfl
      (by decide) rfl rfl

/-- Witness for C6 at a concrete placement and a zero-open-cells maze. -/
theorem placement_seats_or_raises_witness :
    (⟨0, 0⟩ : Position) ≠ ⟨1, 0⟩ ∧ mazeA.getItem ⟨0, 0⟩ = Maze.space ∧
    Game.init mazeFull 10000 drawsA = .error "placement failed" := by
  refine ⟨?_, ?_, ?_⟩
  · exact (placement_seats_or_raises.1 mazeA drawsA ⟨0, 0⟩ ⟨1, 0⟩ ⟨2, 0⟩ rfl).1.1
  · exact ((placement_seats_or_raises.1 mazeA drawsA ⟨0, 0⟩ ⟨1, 0⟩ ⟨2, 0⟩ rfl).2.1).1
  · exact (placement_seats_or_raises.2 mazeFull drawsA 10000 (by decide)).2

/-- Witness for C7: a STAY turn at a concrete game changes nothing. -/
theorem noop_turns_change_nothing_witness :
    turnFor gameA stayAgent none .g0 = .ok gameA :=
  noop_turns_change_nothing gameA stayAgent none .g0 .stay rfl (Or.inl rfl)

/-- Witness for the amended C8 at concrete layouts. -/
theorem layout_validation_witness :
    Maze.init 2 1 (some ['0']) = .error "wrong data length" ∧
    Maze.init 1 1 (some ['x']) = .error "invalid literal" ∧
    (∃ m, Maze.init 1 1 (some ['7']) = .ok m ∧ m.width = 1 ∧ m.height = 1 ∧
      m.wellFormed ∧ ∀ row ∈ m.cells, ∀ v ∈ row, v ≤ 9) := by
  refine ⟨?_, ?_, ?_⟩
  · exact (layout_validation 2 1 ['0']).1 (by decide)
  · exact (layout_validation 1 1 ['x']).2.1 (by decide) ⟨'x', by decide, by decide⟩
  · exact (layout_validation 1 1 ['7']).2.2 (by decide)
      (fun c hc => by rw [List.mem_singleton] at hc; subst hc; decide)

/-- Witness for the amended C9 at a concrete maze. -/
theorem obstruction_semantics_witness :
    mazeB.getItem ⟨-1, 0⟩ = Maze.wall ∧
    ((mazeB.obstruction ⟨0, 0⟩).look .right = true ↔
      mazeB.getItem (⟨0, 0⟩ + step .right) = Maze.wall) := by
  constructor
  · exact (obstruction_semantics mazeB ⟨-1, 0⟩).1 (by decide)
  · exact (obstruction_semantics mazeB ⟨0, 0⟩).2.2 (by decide) .right rfl

/-- Witness for C10 at a concrete maze and repeat counts. -/
theorem tile_formula_witness :
    (mazeB.tile 2 2).width = mazeB.width * 2 ∧
    (mazeB.tile 2 2).getItem ⟨(3 : Nat), (1 : Nat)⟩ =
      mazeB.getItem ⟨((3 % mazeB.width : Nat) : Int), ((1 % mazeB.height : Nat) : Int)⟩ := by
  constructor
  · exact (tile_formula mazeB 2 2 (by decide)).1
  · exact (tile_formula mazeB 2 2 (by decide)).2.2.2 3 1 (by decide) (by decide)
